import Mathlib

/-!
Verification of the Naive Bayes spam filter (bayes_spamfilter notebook).

The notebook's core pipeline is embedded shallowly:

* Tokenization (`tokenize`) embeds the processing applied both to the
  training messages and inside `classify`:
  `re.sub('\W', ' ', message).lower().split()`, i.e. replace each
  non-word character (not alphanumeric, not underscore) with a space,
  lowercase, split on whitespace discarding empty pieces.
* Training embeds the notebook cells computing `vocabulary`, `p_spam`,
  `p_ham`, `n_spam`, `n_ham` and the dictionaries `p_given_spam`,
  `p_given_ham`.  The priors come from
  `value_counts(normalize=True)['spam']` / `['ham']`; indexing a label
  that never occurs raises a `KeyError`, embedded as `Except.error`.
  The globals produced by the cells are packaged into a `Model`.
* `classify` embeds the notebook's `classify` function: two running
  products, one per category, each multiplied by the dictionary value of
  every token present in that dictionary, then compared.

Probabilities are carried in `ℚ` (the mathematical content of the
floating-point computation, exact so that comparisons are unambiguous).
-/

namespace SpamFilter

/-! ### Tokenizer -/

/-- A word character in the sense of the regex `\W`'s complement:
alphanumeric or underscore. -/
def isWordChar (c : Char) : Bool :=
  c.isAlphanum || c == '_'

/-- Embeds `re.sub('\W', ' ', s)`: replace each non-word character by a
space. -/
def subW (s : List Char) : List Char :=
  s.map (fun c => if isWordChar c then c else ' ')

/-- Accumulator-based embedding of Python's `str.split()` (split on
whitespace, discarding empty pieces).  Structural, so it evaluates by
kernel reduction. -/
def pySplitAux (acc : List Char) : List Char → List (List Char)
  | [] => if acc.isEmpty then [] else [acc]
  | c :: rest =>
    if c.isWhitespace then
      if acc.isEmpty then pySplitAux [] rest
      else acc :: pySplitAux [] rest
    else pySplitAux (acc ++ [c]) rest

/-- Python's `str.split()`. -/
def pySplit (s : List Char) : List (List Char) :=
  pySplitAux [] s

/-- The tokenizer used throughout the notebook:
`re.sub('\W', ' ', message).lower().split()`. -/
def tokenize (s : String) : List String :=
  (pySplit ((subW s.data).map Char.toLower)).map String.mk

/-- Modelled from the spec's description of the tokenizer (§4.1 / claim
C5): replace every *maximal run* of non-word characters with a *single*
space. -/
def subWRuns : List Char → List Char
  | [] => []
  | c :: rest =>
    if isWordChar c then c :: subWRuns rest
    else ' ' :: subWRuns (rest.dropWhile (fun d => !isWordChar d))
termination_by l => l.length
decreasing_by
  · simp only [List.length_cons]; omega
  · simp only [List.length_cons]
    exact Nat.lt_succ_of_le (List.dropWhile_sublist _).length_le

/-- The tokenizer exactly as the spec words it: collapse each maximal
run of non-word characters to one space, lowercase, split on whitespace
discarding empty tokens. -/
def tokenizeSpec (s : String) : List String :=
  (pySplit ((subWRuns s.data).map Char.toLower)).map String.mk

/-- Characterization of Python `split()` used for reasoning: emit the
maximal non-whitespace runs, skipping whitespace. -/
def splitTW : List Char → List (List Char)
  | [] => []
  | c :: rest =>
    if c.isWhitespace then splitTW rest
    else (c :: rest.takeWhile (fun d => !d.isWhitespace)) ::
      splitTW (rest.dropWhile (fun d => !d.isWhitespace))
termination_by l => l.length
decreasing_by
  · simp only [List.length_cons]; omega
  · simp only [List.length_cons]
    exact Nat.lt_succ_of_le (List.dropWhile_sublist _).length_le

/-- The maximal runs of characters satisfying `p`, other characters
skipped.  Both tokenizers reduce to this normal form. -/
def charRuns (p : Char → Bool) : List Char → List (List Char)
  | [] => []
  | c :: rest =>
    if p c then (c :: rest.takeWhile p) :: charRuns p (rest.dropWhile p)
    else charRuns p rest
termination_by l => l.length
decreasing_by
  · simp only [List.length_cons]
    exact Nat.lt_succ_of_le (List.dropWhile_sublist _).length_le
  · simp only [List.length_cons]; omega

/-! ### Data model and training -/

/-- A labeled message: one row of the training frame
(`Label`, `SMS`). -/
structure LabeledMsg where
  label : String
  sms : String
deriving DecidableEq

/-- The unique words across all (tokenized) training messages:
`vocabulary = list(set(...))`. -/
def vocabulary (msgs : List LabeledMsg) : List String :=
  ((msgs.map (fun m => tokenize m.sms)).flatten).dedup

/-- Number of training messages carrying the given label. -/
def labelCount (lab : String) (msgs : List LabeledMsg) : ℕ :=
  (msgs.filter (fun m => m.label == lab)).length

/-- Embeds `value_counts(normalize=True)[lab]`: the relative frequency
of the label, or `none` (pandas `KeyError`) when the label never
occurs. -/
def proportionOf (lab : String) (msgs : List LabeledMsg) : Option ℚ :=
  if labelCount lab msgs = 0 then none
  else some ((labelCount lab msgs : ℚ) / (msgs.length : ℚ))

/-- Embeds `n_spam` / `n_ham`: total number of words over the messages
of one category (sum of token-sequence lengths). -/
def nWordsOf (lab : String) (msgs : List LabeledMsg) : ℕ :=
  ((msgs.filter (fun m => m.label == lab)).map
    (fun m => (tokenize m.sms).length)).sum

/-- Embeds `train_spam[word].sum()` / `train_ham[word].sum()`: total
number of occurrences of a word across the messages of one category.  The
notebook materialises this through the `word_counts_per_sms` columns;
the column sum is exactly the occurrence count below. -/
def wordCountOf (lab : String) (msgs : List LabeledMsg) (w : String) : ℕ :=
  ((msgs.filter (fun m => m.label == lab)).map
    (fun m => (tokenize m.sms).count w)).sum

/-- The dictionary `p_given_spam` (resp. `p_given_ham`): one entry per
vocabulary word, with the Laplace-smoothed likelihood
`(count + alpha) / (n_words + alpha * len(vocabulary))`. -/
def pGiven (lab : String) (msgs : List LabeledMsg) (alpha : ℚ) :
    List (String × ℚ) :=
  (vocabulary msgs).map (fun w =>
    (w, ((wordCountOf lab msgs w : ℚ) + alpha) /
        ((nWordsOf lab msgs : ℚ) + alpha * ((vocabulary msgs).length : ℚ))))

/-- The trained artifact: the notebook globals `p_spam`, `p_ham`,
`p_given_spam`, `p_given_ham` that `classify` reads. -/
structure Model where
  p_spam : ℚ
  p_ham : ℚ
  p_given_spam : List (String × ℚ)
  p_given_ham : List (String × ℚ)
deriving DecidableEq

/-- The training pipeline of the notebook, as one function of the
training messages and the smoothing constant (the notebook fixes
`alpha = 1`; the constant is a parameter here so that the code's
behaviour at other values can be stated).  Looking up a label that
never occurs in `value_counts` raises `KeyError`, embedded as
`Except.error`; in that case no model is produced. -/
def train (msgs : List LabeledMsg) (alpha : ℚ) : Except String Model :=
  match proportionOf "spam" msgs, proportionOf "ham" msgs with
  | some ps, some ph =>
    .ok { p_spam := ps
          p_ham := ph
          p_given_spam := pGiven "spam" msgs alpha
          p_given_ham := pGiven "ham" msgs alpha }
  | _, _ => .error "KeyError"

/-! ### Classification -/

/-- One step of the accumulation loop in `classify`: multiply the spam
accumulator by `p_given_spam[word]` if the word is a key there, and the
ham accumulator by `p_given_ham[word]` if the word is a key there. -/
def classifyStep (model : Model) (acc : ℚ × ℚ) (word : String) : ℚ × ℚ :=
  (match model.p_given_spam.lookup word with
   | some v => acc.1 * v
   | none => acc.1,
   match model.p_given_ham.lookup word with
   | some v => acc.2 * v
   | none => acc.2)

/-- The notebook's `classify`: tokenize the message, accumulate the two
unnormalised posteriors starting from the priors, compare.  Returns the
classifier's string verdict `"ham"`, `"spam"` or `"unclassified"`. -/
def classify (model : Model) (message : String) : String :=
  let scores := (tokenize message).foldl (classifyStep model)
    (model.p_spam, model.p_ham)
  if scores.2 > scores.1 then "ham"
  else if scores.2 < scores.1 then "spam"
  else "unclassified"

/-! ### Score functions used to state properties -/

/-- The dictionary values of the message tokens that are dictionary
keys ("recognized" tokens), in message order. -/
def recognizedProbs (tbl : List (String × ℚ)) (tokens : List String) :
    List ℚ :=
  tokens.filterMap (fun w => tbl.lookup w)

/-- The spec's accumulated score: prior times the product of the
conditional probabilities of the recognized tokens. -/
def accScore (priorP : ℚ) (tbl : List (String × ℚ))
    (tokens : List String) : ℚ :=
  priorP * (recognizedProbs tbl tokens).prod

/-- The log-space score: log of the prior plus the sum of the logs of
the recognized tokens' conditional probabilities. -/
noncomputable def logScore (priorP : ℚ) (tbl : List (String × ℚ))
    (tokens : List String) : ℝ :=
  Real.log (priorP : ℝ) +
    ((recognizedProbs tbl tokens).map (fun q : ℚ => Real.log (q : ℝ))).sum

/-! ### Concrete data for witnesses -/

/-- A small two-category corpus used to instantiate the theorems. -/
def corpus0 : List LabeledMsg :=
  [⟨"ham", "Go home now"⟩, ⟨"spam", "WIN cash now!!"⟩, ⟨"ham", "go to bed"⟩]

/-- The model trained on `corpus0` with the notebook's `alpha = 1`. -/
def M0 : Model :=
  match train corpus0 1 with
  | .ok M => M
  | .error _ => ⟨1, 1, [], []⟩

/-- A message long enough that the unguarded float64 product loop of
the notebook underflows both accumulators to exactly `0.0`: 480 tokens,
each contributing a factor at most `1/5` to either score. -/
def underflowMsg : String :=
  String.join (List.replicate 240 "win cash ")

end SpamFilter

namespace SpamFilter

theorem isWordChar_iff (c : Char) :
    isWordChar c = true ↔
      (48 ≤ c.toNat ∧ c.toNat ≤ 57) ∨ (65 ≤ c.toNat ∧ c.toNat ≤ 90) ∨
      (97 ≤ c.toNat ∧ c.toNat ≤ 122) ∨ c.toNat = 95 := by
  simp only [isWordChar, Char.isAlphanum, Char.isAlpha, Char.isDigit,
    Char.isUpper, Char.isLower, Bool.or_eq_true, Bool.and_eq_true,
    decide_eq_true_eq, beq_iff_eq, Char.ext_iff, UInt32.ext_iff]
  constructor
  · rintro (((⟨h1, h2⟩ | ⟨h1, h2⟩) | ⟨h1, h2⟩) | h)
    · exact Or.inr (Or.inl ⟨h1, h2⟩)
    · exact Or.inr (Or.inr (Or.inl ⟨h1, h2⟩))
    · exact Or.inl ⟨h1, h2⟩
    · exact Or.inr (Or.inr (Or.inr h))
  · rintro (⟨h1, h2⟩ | ⟨h1, h2⟩ | ⟨h1, h2⟩ | h)
    · exact Or.inl (Or.inr ⟨h1, h2⟩)
    · exact Or.inl (Or.inl (Or.inl ⟨h1, h2⟩))
    · exact Or.inl (Or.inl (Or.inr ⟨h1, h2⟩))
    · exact Or.inr h

theorem isWhitespace_iff (c : Char) :
    c.isWhitespace = true ↔
      c.toNat = 32 ∨ c.toNat = 9 ∨ c.toNat = 13 ∨ c.toNat = 10 := by
  simp only [Char.isWhitespace, Bool.or_eq_true, decide_eq_true_eq,
    Char.ext_iff, UInt32.ext_iff, Char.toNat]
  have e1 : (' ' : Char).val.toNat = 32 := rfl
  have e2 : ('\t' : Char).val.toNat = 9 := rfl
  have e3 : ('\x0d' : Char).val.toNat = 13 := rfl
  have e4 : ('\n' : Char).val.toNat = 10 := rfl
  rw [e1, e2, e3, e4]
  omega

theorem toLower_toNat (c : Char) :
    (Char.toLower c).toNat =
      if 65 ≤ c.toNat ∧ c.toNat ≤ 90 then c.toNat + 32 else c.toNat := by
  unfold Char.toLower
  split
  · next h =>
    rw [if_pos ⟨h.1, h.2⟩]
    have hv : (c.toNat + 32).isValidChar := by
      left
      have := h.2
      omega
    simp only [Char.ofNat, dif_pos hv]
    simp [Char.ofNatAux, Char.toNat, UInt32.toNat]
  · next h =>
    rw [if_neg fun hh => h ⟨hh.1, hh.2⟩]

theorem toLower_not_whitespace {c : Char} (h : isWordChar c = true) :
    (Char.toLower c).isWhitespace = false := by
  rw [Bool.eq_false_iff]
  intro hw
  rcases (isWordChar_iff c).1 h with h' | h' | h' | h' <;>
    rcases (isWhitespace_iff _).1 hw with hv | hv | hv | hv <;>
      rw [toLower_toNat] at hv <;> split at hv <;> omega

theorem not_wordChar_of_whitespace {c : Char} (h : c.isWhitespace = true) :
    isWordChar c = false := by
  rw [Bool.eq_false_iff]
  intro hw
  rcases (isWhitespace_iff c).1 h with hv | hv | hv | hv <;>
    rcases (isWordChar_iff c).1 hw with h' | h' | h' | h' <;> omega

theorem pySplitAux_eq (s : List Char) : ∀ acc : List Char,
    pySplitAux acc s =
      if acc.isEmpty then splitTW s
      else (acc ++ s.takeWhile (fun d => !d.isWhitespace)) ::
        splitTW (s.dropWhile (fun d => !d.isWhitespace)) := by
  induction s with
  | nil =>
    intro acc
    cases acc <;> simp [pySplitAux, splitTW]
  | cons c rest ih =>
    intro acc
    cases hb : c.isWhitespace with
    | true =>
      have hq : (fun d => !d.isWhitespace) c = false := by simp [hb]
      have hsp : splitTW (c :: rest) = splitTW rest := by
        rw [splitTW]
        simp [hb]
      have htk : (c :: rest).takeWhile (fun d => !d.isWhitespace) = [] := by
        rw [List.takeWhile_cons]
        simp [hb]
      have hdr : (c :: rest).dropWhile (fun d => !d.isWhitespace) = c :: rest := by
        rw [List.dropWhile_cons]
        simp [hb]
      cases acc with
      | nil =>
        have : pySplitAux [] (c :: rest) = pySplitAux [] rest := by
          simp [pySplitAux, hb]
        rw [this, ih]
        simp [hsp]
      | cons a as =>
        have : pySplitAux (a :: as) (c :: rest) = (a :: as) :: pySplitAux [] rest := by
          simp [pySplitAux, hb]
        rw [this, ih]
        simp [htk, hdr, hsp]
    | false =>
      have hq : (fun d => !d.isWhitespace) c = true := by simp [hb]
      have hstep : pySplitAux acc (c :: rest) = pySplitAux (acc ++ [c]) rest := by
        simp [pySplitAux, hb]
      have htk : (c :: rest).takeWhile (fun d => !d.isWhitespace) =
          c :: rest.takeWhile (fun d => !d.isWhitespace) := by
        rw [List.takeWhile_cons]
        simp [hb]
      have hdr : (c :: rest).dropWhile (fun d => !d.isWhitespace) =
          rest.dropWhile (fun d => !d.isWhitespace) := by
        rw [List.dropWhile_cons]
        simp [hb]
      have hne : ((acc ++ [c]).isEmpty) = false := by
        cases acc <;> simp
      rw [hstep, ih, hne]
      cases acc with
      | nil =>
        have hsp : splitTW (c :: rest) =
            (c :: rest.takeWhile (fun d => !d.isWhitespace)) ::
              splitTW (rest.dropWhile (fun d => !d.isWhitespace)) := by
          rw [splitTW]
          simp [hb]
        simp [hsp]
      | cons a as =>
        simp [htk, hdr]

theorem pySplit_eq_splitTW (s : List Char) : pySplit s = splitTW s := by
  rw [pySplit, pySplitAux_eq]
  rfl

theorem splitTW_map_eq_charRuns (g : Char → Char) (p : Char → Bool)
    (hg : ∀ c, (g c).isWhitespace = !(p c)) :
    (s : List Char) → splitTW (s.map g) = (charRuns p s).map (List.map g)
  | [] => by simp [splitTW, charRuns]
  | c :: rest => by
    have hqg : ((fun d => !d.isWhitespace) ∘ g) = p := by
      funext x
      simp [Function.comp, hg x]
    rw [List.map_cons]
    cases hp : p c with
    | true =>
      have hw : (g c).isWhitespace = false := by
        rw [hg, hp]
        rfl
      rw [splitTW, charRuns]
      simp only [hw, Bool.false_eq_true, if_false, hp, if_true]
      rw [List.takeWhile_map, List.dropWhile_map, hqg,
        splitTW_map_eq_charRuns g p hg (rest.dropWhile p)]
      simp
    | false =>
      have hw : (g c).isWhitespace = true := by
        rw [hg, hp]
        rfl
      rw [splitTW, charRuns]
      simp only [hw, if_true, hp, Bool.false_eq_true, if_false]
      exact splitTW_map_eq_charRuns g p hg rest
termination_by s => s.length
decreasing_by
  all_goals simp only [List.length_cons]
  all_goals first
    | omega
    | exact Nat.lt_succ_of_le (List.dropWhile_sublist _).length_le

theorem subWRuns_map_takeWhile : (l : List Char) →
    ((subWRuns l).map Char.toLower).takeWhile (fun d => !d.isWhitespace) =
      (l.takeWhile isWordChar).map Char.toLower
  | [] => by simp [subWRuns]
  | d :: t => by
    cases hd : isWordChar d with
    | true =>
      have hw : (Char.toLower d).isWhitespace = false := toLower_not_whitespace hd
      rw [subWRuns]
      simp only [hd, if_true, List.map_cons, List.takeWhile_cons, hw,
        Bool.not_false, if_true]
      rw [subWRuns_map_takeWhile t]
    | false =>
      rw [subWRuns]
      simp only [hd, Bool.false_eq_true, if_false, List.map_cons,
        List.takeWhile_cons]
      have : Char.toLower ' ' = ' ' := rfl
      rw [this]
      simp [List.takeWhile_cons, hd]

theorem subWRuns_map_dropWhile : (l : List Char) →
    ((subWRuns l).map Char.toLower).dropWhile (fun d => !d.isWhitespace) =
      (subWRuns (l.dropWhile isWordChar)).map Char.toLower
  | [] => by simp [subWRuns]
  | d :: t => by
    cases hd : isWordChar d with
    | true =>
      have hw : (Char.toLower d).isWhitespace = false := toLower_not_whitespace hd
      rw [subWRuns]
      simp only [hd, if_true, List.map_cons, List.dropWhile_cons, hw,
        Bool.not_false, if_true, List.dropWhile_cons]
      rw [subWRuns_map_dropWhile t]
    | false =>
      rw [subWRuns]
      simp only [hd, Bool.false_eq_true, if_false, List.map_cons,
        List.dropWhile_cons]
      have h1 : Char.toLower ' ' = ' ' := rfl
      rw [h1]
      simp only [show (' ' : Char).isWhitespace = true from rfl, Bool.not_true,
        Bool.false_eq_true, if_false]
      rw [subWRuns]
      simp [hd]

theorem charRuns_dropWhile_not (p : Char → Bool) (l : List Char) :
    charRuns p (l.dropWhile (fun c => !p c)) = charRuns p l := by
  induction l with
  | nil => simp
  | cons c t ih =>
    cases hc : p c with
    | true => simp [List.dropWhile_cons, hc]
    | false =>
      rw [List.dropWhile_cons]
      simp only [hc, Bool.not_false, if_true]
      rw [ih, charRuns]
      simp [hc]

theorem splitTW_subWRuns : (l : List Char) →
    splitTW ((subWRuns l).map Char.toLower) =
      (charRuns isWordChar l).map (fun r => r.map Char.toLower)
  | [] => by simp [subWRuns, splitTW, charRuns]
  | d :: t => by
    cases hd : isWordChar d with
    | true =>
      have hw : (Char.toLower d).isWhitespace = false := toLower_not_whitespace hd
      rw [subWRuns]
      simp only [hd, if_true, List.map_cons]
      rw [splitTW]
      simp only [hw, Bool.false_eq_true, if_false]
      rw [subWRuns_map_takeWhile t, subWRuns_map_dropWhile t,
        splitTW_subWRuns (t.dropWhile isWordChar)]
      rw [charRuns]
      simp [hd]
    | false =>
      rw [subWRuns]
      simp only [hd, Bool.false_eq_true, if_false, List.map_cons]
      have h1 : Char.toLower ' ' = ' ' := rfl
      rw [h1, splitTW]
      simp only [show (' ' : Char).isWhitespace = true from rfl, if_true]
      rw [splitTW_subWRuns (t.dropWhile (fun c => !isWordChar c))]
      rw [charRuns_dropWhile_not, charRuns]
      simp [hd]
termination_by l => l.length
decreasing_by
  all_goals simp only [List.length_cons]
  all_goals first
    | omega
    | exact Nat.lt_succ_of_le (List.dropWhile_sublist _).length_le

theorem charRuns_wordChar (p : Char → Bool) : (l : List Char) →
    ∀ r ∈ charRuns p l, ∀ c ∈ r, p c = true
  | [] => by simp [charRuns]
  | d :: t => by
    cases hd : p d with
    | true =>
      rw [charRuns]
      simp only [hd, if_true, List.mem_cons]
      rintro r (rfl | hr)
      · intro c hc
        rcases List.mem_cons.1 hc with rfl | hc'
        · exact hd
        · exact List.mem_takeWhile_imp hc'
      · exact charRuns_wordChar p (t.dropWhile p) r hr
    | false =>
      rw [charRuns]
      simp only [hd, Bool.false_eq_true, if_false]
      exact charRuns_wordChar p t
termination_by l => l.length
decreasing_by
  all_goals simp only [List.length_cons]
  all_goals first
    | omega
    | exact Nat.lt_succ_of_le (List.dropWhile_sublist _).length_le

theorem charRuns_eq_nil (p : Char → Bool) (l : List Char)
    (h : ∀ c ∈ l, p c = false) : charRuns p l = [] := by
  induction l with
  | nil => simp [charRuns]
  | cons c t ih =>
    rw [charRuns]
    have hc : p c = false := h c (List.mem_cons_self c t)
    simp only [hc, Bool.false_eq_true, if_false]
    exact ih fun d hd => h d (List.mem_cons_of_mem c hd)

theorem tokenize_eq_charRuns (s : String) :
    tokenize s =
      (charRuns isWordChar s.data).map (fun r => String.mk (r.map Char.toLower)) := by
  have hg : ∀ c : Char,
      (Char.toLower (if isWordChar c then c else ' ')).isWhitespace =
        !(isWordChar c) := by
    intro c
    cases hc : isWordChar c with
    | true => simp [toLower_not_whitespace hc]
    | false =>
      have h1 : Char.toLower ' ' = ' ' := rfl
      simp [h1]
  have hmap : (subW s.data).map Char.toLower =
      s.data.map (fun c => Char.toLower (if isWordChar c then c else ' ')) := by
    rw [subW, List.map_map]
    rfl
  rw [tokenize, pySplit_eq_splitTW, hmap,
    splitTW_map_eq_charRuns _ isWordChar hg s.data, List.map_map]
  apply List.map_congr_left
  intro r hr
  show String.mk (r.map fun c => Char.toLower (if isWordChar c then c else ' ')) =
    String.mk (r.map Char.toLower)
  congr 1
  apply List.map_congr_left
  intro c hc
  rw [charRuns_wordChar isWordChar s.data r hr c hc, if_pos rfl]

theorem tokenizeSpec_eq_charRuns (s : String) :
    tokenizeSpec s =
      (charRuns isWordChar s.data).map (fun r => String.mk (r.map Char.toLower)) := by
  rw [tokenizeSpec, pySplit_eq_splitTW, splitTW_subWRuns, List.map_map]
  rfl

/-- C5: the notebook's tokenizer (`re.sub('\W', ' ', ...)`, lowercase,
split) agrees with the spec's description (collapse each maximal run of
non-word characters to a single space, lowercase, split on whitespace
discarding empty tokens); it is a total function, and empty or
whitespace-only input yields the empty token sequence. -/
theorem tokenize_matches_spec :
    (∀ s : String, tokenize s = tokenizeSpec s) ∧
    tokenize "" = [] ∧
    ∀ s : String, (∀ c ∈ s.data, c.isWhitespace = true) → tokenize s = [] := by
  refine ⟨fun s => ?_, by decide, fun s h => ?_⟩
  · rw [tokenize_eq_charRuns, tokenizeSpec_eq_charRuns]
  · rw [tokenize_eq_charRuns, charRuns_eq_nil]
    · rfl
    · exact fun c hc => not_wordChar_of_whitespace (h c hc)

/-- Witness for C5 at a concrete whitespace-only string. -/
theorem tokenize_matches_spec_witness :
    (∀ c ∈ (" \t ").data, c.isWhitespace = true) ∧ tokenize " \t " = [] :=
  ⟨by decide, tokenize_matches_spec.2.2 " \t " (by decide)⟩

theorem lookup_map_pair (f : String → ℚ) (l : List String) (w : String) :
    (l.map (fun x => (x, f x))).lookup w =
      if w ∈ l then some (f w) else none := by
  induction l with
  | nil => simp
  | cons x l ih =>
    simp only [List.map_cons, List.lookup]
    cases hx : w == x with
    | true =>
      have hwx : w = x := eq_of_beq hx
      subst hwx
      simp
    | false =>
      have hwx : ¬ w = x := fun hh => by simp [hh] at hx
      rw [ih]
      by_cases hm : w ∈ l
      · simp [hm, hwx]
      · simp [hm, hwx]

theorem lookup_pGiven (lab : String) (msgs : List LabeledMsg) (alpha : ℚ)
    (w : String) :
    (pGiven lab msgs alpha).lookup w =
      if w ∈ vocabulary msgs then
        some (((wordCountOf lab msgs w : ℚ) + alpha) /
          ((nWordsOf lab msgs : ℚ) + alpha * ((vocabulary msgs).length : ℚ)))
      else none := by
  rw [pGiven, lookup_map_pair]

theorem train_ok_inv {msgs : List LabeledMsg} {alpha : ℚ} {M : Model}
    (h : train msgs alpha = .ok M) :
    M.p_spam = (labelCount "spam" msgs : ℚ) / (msgs.length : ℚ) ∧
    M.p_ham = (labelCount "ham" msgs : ℚ) / (msgs.length : ℚ) ∧
    M.p_given_spam = pGiven "spam" msgs alpha ∧
    M.p_given_ham = pGiven "ham" msgs alpha ∧
    labelCount "spam" msgs ≠ 0 ∧ labelCount "ham" msgs ≠ 0 := by
  unfold train proportionOf at h
  by_cases h1 : labelCount "spam" msgs = 0 <;>
    by_cases h2 : labelCount "ham" msgs = 0 <;>
      simp only [h1, h2, if_true, if_false] at h
  · cases h
  · cases h
  · cases h
  · rcases Except.ok.inj h with rfl
    exact ⟨rfl, rfl, rfl, rfl, h1, h2⟩

/-- C2: for each category and each vocabulary word, the trained
conditional-probability entry is
`(word_counts[c][w] + alpha) / (total_word_count[c] + alpha * |V|)`
where `word_counts[c][w]` counts occurrences of `w` over the messages of
category `c` and `total_word_count[c]` sums the token-sequence lengths
of those messages. -/
theorem conditional_probability_laplace (msgs : List LabeledMsg)
    (alpha : ℚ) (M : Model) (h : train msgs alpha = .ok M)
    (w : String) (hw : w ∈ vocabulary msgs) :
    M.p_given_spam.lookup w =
      some (((wordCountOf "spam" msgs w : ℚ) + alpha) /
        ((nWordsOf "spam" msgs : ℚ) + alpha * ((vocabulary msgs).length : ℚ))) ∧
    M.p_given_ham.lookup w =
      some (((wordCountOf "ham" msgs w : ℚ) + alpha) /
        ((nWordsOf "ham" msgs : ℚ) + alpha * ((vocabulary msgs).length : ℚ))) := by
  obtain ⟨-, -, hs, hh, -, -⟩ := train_ok_inv h
  rw [hs, hh, lookup_pGiven, lookup_pGiven, if_pos hw, if_pos hw]
  exact ⟨rfl, rfl⟩

/-- Witness for C2: the trained model on `corpus0`, at the vocabulary
word `"win"`. -/
theorem conditional_probability_laplace_witness :
    train corpus0 1 = .ok M0 ∧ "win" ∈ vocabulary corpus0 ∧
    (M0.p_given_spam.lookup "win" =
      some (((wordCountOf "spam" corpus0 "win" : ℚ) + 1) /
        ((nWordsOf "spam" corpus0 : ℚ) + 1 * ((vocabulary corpus0).length : ℚ))) ∧
     M0.p_given_ham.lookup "win" =
      some (((wordCountOf "ham" corpus0 "win" : ℚ) + 1) /
        ((nWordsOf "ham" corpus0 : ℚ) + 1 * ((vocabulary corpus0).length : ℚ)))) :=
  ⟨by with_unfolding_all rfl, by decide,
    conditional_probability_laplace corpus0 1 M0
      (by with_unfolding_all rfl) "win" (by decide)⟩

theorem vocab_length_pos {msgs : List LabeledMsg} {w : String}
    (hw : w ∈ vocabulary msgs) : 0 < (vocabulary msgs).length :=
  List.length_pos.2 fun hnil => by simp [hnil] at hw

theorem pGiven_value_pos {msgs : List LabeledMsg} {alpha : ℚ}
    (hα : 0 < alpha) (lab : String) {w : String} (hw : w ∈ vocabulary msgs) :
    0 < ((wordCountOf lab msgs w : ℚ) + alpha) /
      ((nWordsOf lab msgs : ℚ) + alpha * ((vocabulary msgs).length : ℚ)) := by
  apply div_pos
  · have : (0 : ℚ) ≤ (wordCountOf lab msgs w : ℚ) := by positivity
    linarith
  · have h1 : (0 : ℚ) ≤ (nWordsOf lab msgs : ℚ) := by positivity
    have h2 : (1 : ℚ) ≤ ((vocabulary msgs).length : ℚ) := by
      exact_mod_cast Nat.one_le_iff_ne_zero.2 (Nat.pos_iff_ne_zero.1 (vocab_length_pos hw))
    nlinarith

/-- C6: with a positive smoothing constant, every vocabulary word has a
strictly positive conditional probability in both trained tables, even
when its count in that category is zero. -/
theorem smoothing_strictly_positive (msgs : List LabeledMsg) (alpha : ℚ)
    (M : Model) (h : train msgs alpha = .ok M) (hα : 0 < alpha)
    (w : String) (hw : w ∈ vocabulary msgs) :
    ∃ qs qh, M.p_given_spam.lookup w = some qs ∧ 0 < qs ∧
      M.p_given_ham.lookup w = some qh ∧ 0 < qh := by
  obtain ⟨-, -, hs, hh, -, -⟩ := train_ok_inv h
  rw [hs, hh, lookup_pGiven, lookup_pGiven, if_pos hw, if_pos hw]
  exact ⟨_, _, rfl, pGiven_value_pos hα "spam" hw, rfl,
    pGiven_value_pos hα "ham" hw⟩

/-- Witness for C6 at `corpus0`, `alpha = 1`, word `"cash"` (which never
occurs in a ham message, so its ham count is zero). -/
theorem smoothing_strictly_positive_witness :
    train corpus0 1 = .ok M0 ∧ (0 : ℚ) < 1 ∧ "cash" ∈ vocabulary corpus0 ∧
    wordCountOf "ham" corpus0 "cash" = 0 ∧
    (∃ qs qh, M0.p_given_spam.lookup "cash" = some qs ∧ 0 < qs ∧
      M0.p_given_ham.lookup "cash" = some qh ∧ 0 < qh) :=
  ⟨by with_unfolding_all rfl, by norm_num, by decide, by decide,
    smoothing_strictly_positive corpus0 1 M0 (by with_unfolding_all rfl)
      (by norm_num) "cash" (by decide)⟩

/-- C8: the trained priors are the maximum-likelihood estimates
`count(category) / total`, with no smoothing. -/
theorem priors_maximum_likelihood (msgs : List LabeledMsg) (alpha : ℚ)
    (M : Model) (h : train msgs alpha = .ok M) :
    M.p_spam = (labelCount "spam" msgs : ℚ) / (msgs.length : ℚ) ∧
    M.p_ham = (labelCount "ham" msgs : ℚ) / (msgs.length : ℚ) := by
  obtain ⟨h1, h2, -, -, -, -⟩ := train_ok_inv h
  exact ⟨h1, h2⟩

/-- Witness for C8 on `corpus0`. -/
theorem priors_maximum_likelihood_witness :
    train corpus0 1 = .ok M0 ∧
    (M0.p_spam = (labelCount "spam" corpus0 : ℚ) / (corpus0.length : ℚ) ∧
     M0.p_ham = (labelCount "ham" corpus0 : ℚ) / (corpus0.length : ℚ)) :=
  ⟨by with_unfolding_all rfl,
    priors_maximum_likelihood corpus0 1 M0 (by with_unfolding_all rfl)⟩

/-- C10: the two trained conditional-probability tables have the same
key sequence, namely the vocabulary; hence the two membership tests in
`classify` always agree. -/
theorem tables_key_sets_agree (msgs : List LabeledMsg) (alpha : ℚ)
    (M : Model) (h : train msgs alpha = .ok M) :
    M.p_given_spam.map Prod.fst = vocabulary msgs ∧
    M.p_given_ham.map Prod.fst = vocabulary msgs ∧
    ∀ w : String, (M.p_given_spam.lookup w).isSome ↔
      (M.p_given_ham.lookup w).isSome := by
  obtain ⟨-, -, hs, hh, -, -⟩ := train_ok_inv h
  rw [hs, hh]
  refine ⟨?_, ?_, fun w => ?_⟩
  · rw [pGiven, List.map_map]
    exact List.map_id _
  · rw [pGiven, List.map_map]
    exact List.map_id _
  · rw [lookup_pGiven, lookup_pGiven]
    by_cases hw : w ∈ vocabulary msgs <;> simp [hw]

/-- Witness for C10 on `corpus0`. -/
theorem tables_key_sets_agree_witness :
    train corpus0 1 = .ok M0 ∧
    (M0.p_given_spam.map Prod.fst = vocabulary corpus0 ∧
     M0.p_given_ham.map Prod.fst = vocabulary corpus0 ∧
     ∀ w : String, (M0.p_given_spam.lookup w).isSome ↔
       (M0.p_given_ham.lookup w).isSome) :=
  ⟨by with_unfolding_all rfl,
    tables_key_sets_agree corpus0 1 M0 (by with_unfolding_all rfl)⟩

/-- C4 (amended): training fails — with the `KeyError` raised by the
prior lookup, before any model exists — exactly when one of the two
category labels never occurs (which covers the empty corpus); the
smoothing constant is never validated, so a non-positive `alpha` does
not cause a failure. -/
theorem train_error_iff (msgs : List LabeledMsg) (alpha : ℚ) :
    (∃ e, train msgs alpha = .error e) ↔
      labelCount "spam" msgs = 0 ∨ labelCount "ham" msgs = 0 := by
  unfold train proportionOf
  by_cases h1 : labelCount "spam" msgs = 0 <;>
    by_cases h2 : labelCount "ham" msgs = 0 <;>
      simp [h1, h2]

/-- Counterexample for C4 as stated: `corpus0` contains both
categories, the smoothing constant `0` is non-positive, and training
nevertheless succeeds (no validation of `alpha` exists in the code). -/
theorem train_alpha_zero_trains : ∃ M, train corpus0 0 = .ok M := by
  with_unfolding_all exact ⟨_, rfl⟩

theorem foldl_classifyStep (M : Model) (ts : List String) :
    ∀ a b : ℚ, ts.foldl (classifyStep M) (a, b) =
      (a * (recognizedProbs M.p_given_spam ts).prod,
       b * (recognizedProbs M.p_given_ham ts).prod) := by
  induction ts with
  | nil =>
    intro a b
    simp [recognizedProbs]
  | cons w ts ih =>
    intro a b
    rw [List.foldl_cons]
    rcases hs : M.p_given_spam.lookup w with _ | v <;>
      rcases hh : M.p_given_ham.lookup w with _ | v' <;>
        simp only [classifyStep, hs, hh] <;>
          rw [ih] <;>
            simp [recognizedProbs, List.filterMap_cons, hs, hh, mul_assoc,
              mul_comm, mul_left_comm]

theorem classify_eq_accScore (M : Model) (s : String) :
    classify M s =
      if accScore M.p_ham M.p_given_ham (tokenize s) >
          accScore M.p_spam M.p_given_spam (tokenize s) then "ham"
      else if accScore M.p_spam M.p_given_spam (tokenize s) >
          accScore M.p_ham M.p_given_ham (tokenize s) then "spam"
      else "unclassified" := by
  rw [classify]
  simp only [foldl_classifyStep M (tokenize s) M.p_spam M.p_ham]
  rfl

/-- C1: `classify` returns `"ham"` exactly when the accumulated ham
score (prior times the conditional probabilities of the recognized
tokens) strictly exceeds the spam score, `"spam"` in the symmetric
case, and `"unclassified"` on exact equality; with zero recognized
tokens the comparison degenerates to the raw priors, a tie still giving
`"unclassified"`. -/
theorem classify_decision (msgs : List LabeledMsg) (alpha : ℚ) (M : Model)
    (_h : train msgs alpha = .ok M) (s : String) :
    classify M s =
      (if accScore M.p_ham M.p_given_ham (tokenize s) >
          accScore M.p_spam M.p_given_spam (tokenize s) then "ham"
       else if accScore M.p_spam M.p_given_spam (tokenize s) >
          accScore M.p_ham M.p_given_ham (tokenize s) then "spam"
       else "unclassified") ∧
    (recognizedProbs M.p_given_spam (tokenize s) = [] →
      recognizedProbs M.p_given_ham (tokenize s) = [] →
      classify M s =
        (if M.p_ham > M.p_spam then "ham"
         else if M.p_spam > M.p_ham then "spam"
         else "unclassified")) := by
  refine ⟨classify_eq_accScore M s, fun hns hnh => ?_⟩
  rw [classify_eq_accScore M s, accScore, accScore, hns, hnh]
  simp

/-- Witness for C1 on `corpus0` and a message with no recognized
tokens. -/
theorem classify_decision_witness :
    train corpus0 1 = .ok M0 ∧
    recognizedProbs M0.p_given_spam (tokenize "zq") = [] ∧
    recognizedProbs M0.p_given_ham (tokenize "zq") = [] ∧
    classify M0 "zq" =
      (if M0.p_ham > M0.p_spam then "ham"
       else if M0.p_spam > M0.p_ham then "spam"
       else "unclassified") :=
  ⟨by with_unfolding_all rfl, by with_unfolding_all rfl,
    by with_unfolding_all rfl,
    (classify_decision corpus0 1 M0 (by with_unfolding_all rfl) "zq").2
      (by with_unfolding_all rfl) (by with_unfolding_all rfl)⟩

theorem foldl_filter_id {α β : Type} (f : β → α → β) (p : α → Bool)
    (hid : ∀ b a, p a = false → f b a = b) :
    ∀ (l : List α) (b : β), l.foldl f b = (l.filter p).foldl f b := by
  intro l
  induction l with
  | nil => intro b; rfl
  | cons x l ih =>
    intro b
    rw [List.foldl_cons, List.filter_cons]
    cases hx : p x with
    | true =>
      rw [if_pos rfl, List.foldl_cons]
      exact ih (f b x)
    | false =>
      rw [if_neg Bool.false_ne_true, hid b x hx]
      exact ih b

/-- C7: during classification every token absent from the vocabulary is
skipped entirely: the loop step leaves both accumulators unchanged, so
it contributes no factor to either score, and the accumulated scores of
any message equal those of its recognized tokens alone; in particular a
message none of whose tokens is in the vocabulary is decided by
comparing the raw priors, `"unclassified"` exactly on equal priors. -/
theorem unknown_tokens_skipped (msgs : List LabeledMsg) (alpha : ℚ)
    (M : Model) (h : train msgs alpha = .ok M) :
    (∀ acc : ℚ × ℚ, ∀ w : String, w ∉ vocabulary msgs →
      classifyStep M acc w = acc) ∧
    (∀ s : String,
      (tokenize s).foldl (classifyStep M) (M.p_spam, M.p_ham) =
        ((tokenize s).filter
          (fun w => (vocabulary msgs).contains w)).foldl
          (classifyStep M) (M.p_spam, M.p_ham)) ∧
    (∀ s : String, (∀ w ∈ tokenize s, w ∉ vocabulary msgs) →
      classify M s =
        (if M.p_ham > M.p_spam then "ham"
         else if M.p_spam > M.p_ham then "spam"
         else "unclassified") ∧
      (classify M s = "unclassified" ↔ M.p_ham = M.p_spam)) := by
  obtain ⟨-, -, hts, hth, -, -⟩ := train_ok_inv h
  have hstep : ∀ acc : ℚ × ℚ, ∀ w : String, w ∉ vocabulary msgs →
      classifyStep M acc w = acc := by
    intro acc w hw
    rw [classifyStep, hts, hth, lookup_pGiven, lookup_pGiven,
      if_neg hw, if_neg hw]
  have hfilter : ∀ s : String,
      (tokenize s).foldl (classifyStep M) (M.p_spam, M.p_ham) =
        ((tokenize s).filter
          (fun w => (vocabulary msgs).contains w)).foldl
          (classifyStep M) (M.p_spam, M.p_ham) := by
    intro s
    apply foldl_filter_id
    intro b a hpa
    refine hstep b a fun hmem => ?_
    have hc : (vocabulary msgs).contains a = true := List.elem_iff.2 hmem
    rw [hc] at hpa
    cases hpa
  refine ⟨hstep, hfilter, fun s hs => ?_⟩
  have hrec : ∀ lab, recognizedProbs (pGiven lab msgs alpha) (tokenize s) = [] := by
    intro lab
    rw [recognizedProbs, List.filterMap_eq_nil_iff]
    intro w hw
    rw [lookup_pGiven, if_neg (hs w hw)]
  have h1 : classify M s =
      (if M.p_ham > M.p_spam then "ham"
       else if M.p_spam > M.p_ham then "spam"
       else "unclassified") := by
    rw [classify_eq_accScore M s, accScore, accScore, hts, hth, hrec, hrec]
    simp
  refine ⟨h1, ?_⟩
  rw [h1]
  rcases lt_trichotomy M.p_spam M.p_ham with hlt | heq | hgt
  · rw [if_pos hlt]
    constructor
    · intro hc
      exact absurd hc (by decide)
    · intro he
      exact absurd he (ne_of_gt hlt)
  · rw [heq]
    simp
  · rw [if_neg (not_lt_of_gt hgt), if_pos hgt]
    constructor
    · intro hc
      exact absurd hc (by decide)
    · intro he
      exact absurd he (ne_of_lt hgt)

/-- Witness for C7: on `corpus0`, the unknown token `"xyzzyqqq"` leaves
the accumulators unchanged, a mixed message's scores equal those of its
recognized tokens, and the all-unknown message falls back to the
priors. -/
theorem unknown_tokens_skipped_witness :
    train corpus0 1 = .ok M0 ∧
    "xyzzyqqq" ∉ vocabulary corpus0 ∧
    classifyStep M0 (M0.p_spam, M0.p_ham) "xyzzyqqq" = (M0.p_spam, M0.p_ham) ∧
    ((tokenize "WIN xyzzyqqq cash").foldl (classifyStep M0)
        (M0.p_spam, M0.p_ham) =
      ((tokenize "WIN xyzzyqqq cash").filter
        (fun w => (vocabulary corpus0).contains w)).foldl (classifyStep M0)
        (M0.p_spam, M0.p_ham)) ∧
    (∀ w ∈ tokenize "xyzzyqqq", w ∉ vocabulary corpus0) ∧
    (classify M0 "xyzzyqqq" =
      (if M0.p_ham > M0.p_spam then "ham"
       else if M0.p_spam > M0.p_ham then "spam"
       else "unclassified") ∧
     (classify M0 "xyzzyqqq" = "unclassified" ↔ M0.p_ham = M0.p_spam)) :=
  ⟨by with_unfolding_all rfl, by decide,
    (unknown_tokens_skipped corpus0 1 M0 (by with_unfolding_all rfl)).1
      (M0.p_spam, M0.p_ham) "xyzzyqqq" (by decide),
    (unknown_tokens_skipped corpus0 1 M0 (by with_unfolding_all rfl)).2.1
      "WIN xyzzyqqq cash",
    by decide,
    (unknown_tokens_skipped corpus0 1 M0 (by with_unfolding_all rfl)).2.2
      "xyzzyqqq" (by decide)⟩

theorem log_list_prod (l : List ℚ) (hl : ∀ q ∈ l, 0 < q) :
    Real.log ((l.prod : ℚ) : ℝ) = (l.map (fun q : ℚ => Real.log (q : ℝ))).sum := by
  induction l with
  | nil => simp
  | cons q l ih =>
    have hq : 0 < q := hl q (List.mem_cons_self q l)
    have hlp : 0 < l.prod :=
      List.prod_pos fun a ha => hl a (List.mem_cons_of_mem q ha)
    rw [List.prod_cons, Rat.cast_mul, Real.log_mul, List.map_cons,
      List.sum_cons, ih fun a ha => hl a (List.mem_cons_of_mem q ha)]
    · exact_mod_cast hq.ne'
    · exact_mod_cast hlp.ne'

theorem logScore_eq_log_accScore (p : ℚ) (tbl : List (String × ℚ))
    (ts : List String) (hp : 0 < p)
    (ht : ∀ q ∈ recognizedProbs tbl ts, 0 < q) :
    logScore p tbl ts = Real.log ((accScore p tbl ts : ℚ) : ℝ) := by
  have hlp : 0 < (recognizedProbs tbl ts).prod := List.prod_pos ht
  rw [logScore, accScore, Rat.cast_mul, Real.log_mul, log_list_prod _ ht]
  · exact_mod_cast hp.ne'
  · exact_mod_cast hlp.ne'

theorem recognized_pos {msgs : List LabeledMsg} {alpha : ℚ}
    (hα : 0 < alpha) (lab : String) (ts : List String) :
    ∀ q ∈ recognizedProbs (pGiven lab msgs alpha) ts, 0 < q := by
  intro q hq
  rw [recognizedProbs] at hq
  rcases List.mem_filterMap.1 hq with ⟨w, -, hlk⟩
  rw [lookup_pGiven] at hlk
  by_cases hw : w ∈ vocabulary msgs
  · rw [if_pos hw] at hlk
    rcases Option.some.inj hlk with rfl
    exact pGiven_value_pos hα lab hw
  · rw [if_neg hw] at hlk
    cases hlk

theorem prior_pos {msgs : List LabeledMsg} {lab : String}
    (h : labelCount lab msgs ≠ 0) :
    0 < (labelCount lab msgs : ℚ) / (msgs.length : ℚ) := by
  apply div_pos
  · exact_mod_cast Nat.pos_of_ne_zero h
  · have hle : labelCount lab msgs ≤ msgs.length := List.length_filter_le _ _
    have : 0 < msgs.length := lt_of_lt_of_le (Nat.pos_of_ne_zero h) hle
    exact_mod_cast this

/-- Supporting lemma for C3: over exact rational scores the decision
computed by the direct probability products coincides with the decision
computed by comparing summed logarithms, via strict monotonicity of the
logarithm on the positive scores. -/
theorem classify_log_space_equivalent (msgs : List LabeledMsg)
    (alpha : ℚ) (M : Model) (h : train msgs alpha = .ok M)
    (hα : 0 < alpha) (s : String) :
    classify M s =
      (if logScore M.p_ham M.p_given_ham (tokenize s) >
          logScore M.p_spam M.p_given_spam (tokenize s) then "ham"
       else if logScore M.p_spam M.p_given_spam (tokenize s) >
          logScore M.p_ham M.p_given_ham (tokenize s) then "spam"
       else "unclassified") := by
  obtain ⟨h1, h2, hts, hth, hs0, hh0⟩ := train_ok_inv h
  have hpspam : 0 < M.p_spam := by rw [h1]; exact prior_pos hs0
  have hpham : 0 < M.p_ham := by rw [h2]; exact prior_pos hh0
  have hrs : ∀ q ∈ recognizedProbs M.p_given_spam (tokenize s), 0 < q := by
    rw [hts]; exact recognized_pos hα "spam" (tokenize s)
  have hrh : ∀ q ∈ recognizedProbs M.p_given_ham (tokenize s), 0 < q := by
    rw [hth]; exact recognized_pos hα "ham" (tokenize s)
  have haccS : 0 < accScore M.p_spam M.p_given_spam (tokenize s) :=
    mul_pos hpspam (List.prod_pos hrs)
  have haccH : 0 < accScore M.p_ham M.p_given_ham (tokenize s) :=
    mul_pos hpham (List.prod_pos hrh)
  rw [classify_eq_accScore M s,
    logScore_eq_log_accScore _ _ _ hpham hrh,
    logScore_eq_log_accScore _ _ _ hpspam hrs]
  have hiff1 : (accScore M.p_ham M.p_given_ham (tokenize s) >
      accScore M.p_spam M.p_given_spam (tokenize s)) ↔
      (Real.log ((accScore M.p_ham M.p_given_ham (tokenize s) : ℚ) : ℝ) >
       Real.log ((accScore M.p_spam M.p_given_spam (tokenize s) : ℚ) : ℝ)) := by
    rw [gt_iff_lt, gt_iff_lt,
      Real.log_lt_log_iff (by exact_mod_cast haccS) (by exact_mod_cast haccH),
      Rat.cast_lt]
  have hiff2 : (accScore M.p_spam M.p_given_spam (tokenize s) >
      accScore M.p_ham M.p_given_ham (tokenize s)) ↔
      (Real.log ((accScore M.p_spam M.p_given_spam (tokenize s) : ℚ) : ℝ) >
       Real.log ((accScore M.p_ham M.p_given_ham (tokenize s) : ℚ) : ℝ)) := by
    rw [gt_iff_lt, gt_iff_lt,
      Real.log_lt_log_iff (by exact_mod_cast haccH) (by exact_mod_cast haccS),
      Rat.cast_lt]
  rw [if_congr hiff1 rfl (if_congr hiff2 rfl rfl)]

/-- Concrete instance of the exact log-space agreement on `corpus0`. -/
theorem classify_log_space_equivalent_witness :
    train corpus0 1 = .ok M0 ∧ (0 : ℚ) < 1 ∧
    classify M0 "WIN cash now!!" =
      (if logScore M0.p_ham M0.p_given_ham (tokenize "WIN cash now!!") >
          logScore M0.p_spam M0.p_given_spam (tokenize "WIN cash now!!") then "ham"
       else if logScore M0.p_spam M0.p_given_spam (tokenize "WIN cash now!!") >
          logScore M0.p_ham M0.p_given_ham (tokenize "WIN cash now!!") then "spam"
       else "unclassified") :=
  ⟨by with_unfolding_all rfl, by norm_num,
    classify_log_space_equivalent corpus0 1 M0 (by with_unfolding_all rfl)
      (by norm_num) "WIN cash now!!"⟩

theorem wordCountOf_eq_count (lab : String) (msgs : List LabeledMsg)
    (w : String) :
    wordCountOf lab msgs w =
      (((msgs.filter (fun m => m.label == lab)).map
        (fun m => tokenize m.sms)).flatten).count w := by
  rw [wordCountOf, List.count_flatten, List.map_map]
  rfl

theorem nWordsOf_eq_length (lab : String) (msgs : List LabeledMsg) :
    nWordsOf lab msgs =
      (((msgs.filter (fun m => m.label == lab)).map
        (fun m => tokenize m.sms)).flatten).length := by
  rw [nWordsOf, List.length_flatten, List.map_map]
  rfl

theorem sum_wordCountOf (lab : String) (msgs : List LabeledMsg) :
    ((vocabulary msgs).map (fun w => wordCountOf lab msgs w)).sum =
      nWordsOf lab msgs := by
  have hL : ∀ x ∈ ((msgs.filter (fun m => m.label == lab)).map
      (fun m => tokenize m.sms)).flatten, x ∈ vocabulary msgs := by
    intro x hx
    rw [vocabulary, List.mem_dedup]
    rcases List.mem_flatten.1 hx with ⟨l, hl, hxl⟩
    rcases List.mem_map.1 hl with ⟨m, hm, rfl⟩
    exact List.mem_flatten.2
      ⟨_, List.mem_map.2 ⟨m, List.mem_of_mem_filter hm, rfl⟩, hxl⟩
  set L := ((msgs.filter (fun m => m.label == lab)).map
    (fun m => tokenize m.sms)).flatten with hLdef
  have h1 : ((vocabulary msgs).map (fun w => wordCountOf lab msgs w)).sum =
      ((vocabulary msgs).map (fun w => L.count w)).sum := by
    congr 1
    exact List.map_congr_left fun w _ => wordCountOf_eq_count lab msgs w
  rw [h1, nWordsOf_eq_length, ← hLdef]
  have h2 : ((vocabulary msgs).map (fun w => L.count w)).sum =
      (vocabulary msgs).toFinset.sum (fun w => L.count w) :=
    (List.sum_toFinset _ (List.nodup_dedup _)).symm
  rw [h2]
  have h3 : L.toFinset ⊆ (vocabulary msgs).toFinset := by
    intro x hx
    exact List.mem_toFinset.2 (hL x (List.mem_toFinset.1 hx))
  have h4 : (vocabulary msgs).toFinset.sum (fun w => L.count w) =
      L.toFinset.sum (fun w => L.count w) := by
    refine (Finset.sum_subset h3 ?_).symm
    intro x _ hxL
    exact List.count_eq_zero.2 fun hmem => hxL (List.mem_toFinset.2 hmem)
  rw [h4]
  exact List.sum_toFinset_count_eq_length L

/-- C9: for each category, the vocabulary word counts of that category
sum to the category's total word count (the sum of token-sequence
lengths over its messages). -/
theorem word_counts_sum_invariant (msgs : List LabeledMsg) :
    ((vocabulary msgs).map (fun w => wordCountOf "spam" msgs w)).sum =
      nWordsOf "spam" msgs ∧
    ((vocabulary msgs).map (fun w => wordCountOf "ham" msgs w)).sum =
      nWordsOf "ham" msgs :=
  ⟨sum_wordCountOf "spam" msgs, sum_wordCountOf "ham" msgs⟩

theorem recognizedProbs_append (tbl : List (String × ℚ)) (l1 l2 : List String) :
    recognizedProbs tbl (l1 ++ l2) =
      recognizedProbs tbl l1 ++ recognizedProbs tbl l2 := by
  rw [recognizedProbs, recognizedProbs, recognizedProbs, List.filterMap_append]

theorem recognizedProbs_flatten_replicate (tbl : List (String × ℚ))
    (l : List String) (n : ℕ) :
    recognizedProbs tbl ((List.replicate n l).flatten) =
      (List.replicate n (recognizedProbs tbl l)).flatten := by
  induction n with
  | zero => rfl
  | succ n ih =>
    rw [List.replicate_succ, List.replicate_succ, List.flatten_cons,
      List.flatten_cons, recognizedProbs_append, ih]

theorem prod_flatten_replicate (r : List ℚ) (n : ℕ) :
    ((List.replicate n r).flatten).prod = r.prod ^ n := by
  induction n with
  | zero => simp
  | succ n ih =>
    rw [List.replicate_succ, List.flatten_cons, List.prod_append, ih,
      pow_succ, mul_comm]

set_option maxRecDepth 1000000 in
set_option maxHeartbeats 2000000 in
/-- C3: the notebook's `classify` accumulates the two posterior scores
as raw (float64) probability products with no log-space guard, and is
therefore not robust against underflow.  On `underflowMsg` (480
recognized tokens) both exact accumulated scores are strictly positive
and strictly below `1 / 2 ^ 1074`, the smallest positive float64, so
the unguarded float64 loop drives both accumulators to exactly `0.0`
and returns the spurious tie `"unclassified"`, while the exact-product
decision — which by `classify_log_space_equivalent` coincides with the
log-space decision — is `"spam"`. -/
theorem classify_underflow_failing_input :
    classify M0 underflowMsg = "spam" ∧
    0 < accScore M0.p_spam M0.p_given_spam (tokenize underflowMsg) ∧
    0 < accScore M0.p_ham M0.p_given_ham (tokenize underflowMsg) ∧
    accScore M0.p_spam M0.p_given_spam (tokenize underflowMsg) <
      1 / 2 ^ 1074 ∧
    accScore M0.p_ham M0.p_given_ham (tokenize underflowMsg) <
      1 / 2 ^ 1074 := by
  have htok : tokenize underflowMsg =
      (List.replicate 240 ["win", "cash"]).flatten := by decide
  have hps : M0.p_spam = 1/3 := by with_unfolding_all decide
  have hph : M0.p_ham = 2/3 := by with_unfolding_all decide
  have hrs : recognizedProbs M0.p_given_spam ["win", "cash"] = [1/5, 1/5] := by
    with_unfolding_all decide
  have hrh : recognizedProbs M0.p_given_ham ["win", "cash"] = [1/13, 1/13] := by
    with_unfolding_all decide
  have haccS : accScore M0.p_spam M0.p_given_spam (tokenize underflowMsg) =
      (1/3 : ℚ) * (1/25) ^ 240 := by
    rw [accScore, htok, recognizedProbs_flatten_replicate, hrs,
      prod_flatten_replicate, hps]
    norm_num [List.prod_cons, List.prod_nil]
  have haccH : accScore M0.p_ham M0.p_given_ham (tokenize underflowMsg) =
      (2/3 : ℚ) * (1/169) ^ 240 := by
    rw [accScore, htok, recognizedProbs_flatten_replicate, hrh,
      prod_flatten_replicate, hph]
    norm_num [List.prod_cons, List.prod_nil]
  refine ⟨?_, ?_, ?_, ?_, ?_⟩
  · rw [classify_eq_accScore, haccS, haccH]
    have h1 : ¬ ((2/3 : ℚ) * (1/169) ^ 240 > (1/3 : ℚ) * (1/25) ^ 240) := by
      norm_num
    have h2 : (1/3 : ℚ) * (1/25) ^ 240 > (2/3 : ℚ) * (1/169) ^ 240 := by
      norm_num
    rw [if_neg h1, if_pos h2]
  · rw [haccS]
    positivity
  · rw [haccH]
    positivity
  · rw [haccS]
    norm_num
  · rw [haccH]
    norm_num
